import Mathlib

/-!
Verification of `dynamic_string.h` (immutable refcounted UTF-8 strings plus a
copy-on-write string builder) against its natural-language specification.

The C source is shallowly embedded:
* a byte is a `Nat` in `[0, 255]`;
* the single-allocation string block (`[refcount|length|data|NUL]`) is a
  `Block` holding the refcount and the logical content bytes (the `length`
  metadata field always equals `data.length`, and the NUL terminator after the
  content is implicit in the layout);
* the allocator is a `Heap`: a list of `Option Block` indexed by address,
  `none` marking a freed block; `ds_alloc` appends a fresh block at the end;
* a `ds_string` handle is an `Option Nat` (an address, or `none` for `NULL`);
* a `const char*` argument is the list of bytes that precede its NUL
  terminator, so `strlen` is modelled via `cstrBytes`, which keeps the part of
  the list before the first `0` byte (a `0` inside the list models an embedded
  NUL in the buffer, invisible to `strlen`/`strcmp`);
* C `int` results (0/1 success flags, `ds_iter_has_next`) are `Nat`.
-/

namespace DynamicString

/-- One byte, as a natural number. All stored bytes are below 256. -/
abbrev Byte := Nat

/-- Bytes of the C string `text` as seen by `strlen`/`memcpy(.., strlen(text))`:
the prefix before the first NUL byte. -/

def cstrBytes (text : List Byte) : List Byte :=
  text.takeWhile (fun b => b ≠ 0)

/-- Embedding of `ds_encode_utf8` (dynamic_string.h lines 644-673): encodes a
codepoint as 1-4 UTF-8 bytes, with any codepoint above 0x10FFFF replaced by
the three-byte encoding EF BF BD of U+FFFD.  The C function fills a buffer and
returns the byte count; here the buffer is returned as a list whose length is
that count. -/

def ds_encode_utf8 (codepoint : Nat) : List Byte :=
  if codepoint ≤ 0x7F then
    [codepoint]
  else if codepoint ≤ 0x7FF then
    [0xC0 ||| (codepoint >>> 6), 0x80 ||| (codepoint &&& 0x3F)]
  else if codepoint ≤ 0xFFFF then
    [0xE0 ||| (codepoint >>> 12), 0x80 ||| ((codepoint >>> 6) &&& 0x3F),
     0x80 ||| (codepoint &&& 0x3F)]
  else if codepoint ≤ 0x10FFFF then
    [0xF0 ||| (codepoint >>> 18), 0x80 ||| ((codepoint >>> 12) &&& 0x3F),
     0x80 ||| ((codepoint >>> 6) &&& 0x3F), 0x80 ||| (codepoint &&& 0x3F)]
  else
    [0xEF, 0xBF, 0xBD]

/-- Embedding of `ds_decode_utf8_at` (dynamic_string.h lines 1225-1268):
decodes one codepoint of `data` starting at `pos`, never reading at or past
`endPos`.  Returns `(codepoint, bytes_consumed)`; a truncated multi-byte
sequence yields `(0, 0)`.  `data.getD pos 0` models the `unsigned char`
read `data[pos]` (the C code reads `first` once into a local; inlining the
pure read is equivalent). -/

def ds_decode_utf8_at (data : List Byte) (pos endPos : Nat) : Nat × Nat :=
  if pos ≥ endPos then
    (0, 0)
  else if data.getD pos 0 ≤ 0x7F then
    (data.getD pos 0, 1)
  else if data.getD pos 0 &&& 0xE0 = 0xC0 then
    if pos + 1 ≥ endPos then (0, 0)
    else (((data.getD pos 0 &&& 0x1F) <<< 6) ||| (data.getD (pos + 1) 0 &&& 0x3F), 2)
  else if data.getD pos 0 &&& 0xF0 = 0xE0 then
    if pos + 2 ≥ endPos then (0, 0)
    else ((((data.getD pos 0 &&& 0x0F) <<< 12) ||| ((data.getD (pos + 1) 0 &&& 0x3F) <<< 6)) |||
            (data.getD (pos + 2) 0 &&& 0x3F), 3)
  else if data.getD pos 0 &&& 0xF8 = 0xF0 then
    if pos + 3 ≥ endPos then (0, 0)
    else (((((data.getD pos 0 &&& 0x07) <<< 18) ||| ((data.getD (pos + 1) 0 &&& 0x3F) <<< 12)) |||
            ((data.getD (pos + 2) 0 &&& 0x3F) <<< 6)) ||| (data.getD (pos + 3) 0 &&& 0x3F), 4)
  else
    (0xFFFD, 1)

/-- Masking with `2 ^ n - 1` is reduction modulo `2 ^ n`. -/

structure ds_codepoint_iter where
  data : List Byte
  pos : Nat
  endPos : Nat
deriving Repr, DecidableEq

/-- Embedding of `ds_iter_next` (dynamic_string.h lines 1286-1300).  The C
function mutates the iterator through a pointer and returns the codepoint;
here the advanced iterator is returned alongside.  A NULL iterator pointer is
not modelled (the iterator is a value). -/

def ds_iter_next (iter : ds_codepoint_iter) : Nat × ds_codepoint_iter :=
  if iter.pos ≥ iter.endPos then
    (0, iter)
  else
    let r := ds_decode_utf8_at iter.data iter.pos iter.endPos
    if r.2 = 0 then (0, iter)
    else (r.1, ⟨iter.data, iter.pos + r.2, iter.endPos⟩)

/-- Embedding of `ds_iter_has_next` (dynamic_string.h line 1302), returning
the C int 1 or 0.  The NULL-iterator branch is not modelled. -/

def ds_iter_has_next (iter : ds_codepoint_iter) : Nat :=
  if iter.pos < iter.endPos then 1 else 0

/-- State component of one `ds_iter_next` call. -/

def ds_iter_step (iter : ds_codepoint_iter) : ds_codepoint_iter :=
  (ds_iter_next iter).2

/-- Claim C10: at a truncated multi-byte tail (the decoder reports zero bytes
consumed although the position is still before the end), `ds_iter_next`
returns 0 and leaves the iterator unchanged, while `ds_iter_has_next` still
returns 1; iterating any number of further steps never changes the state, so
a loop driven by has-next never terminates there. -/

structure Block where
  refcount : Nat
  data : List Byte
deriving Repr, DecidableEq

/-- The allocator state: blocks indexed by address, `none` marking a freed
block.  `alloc` appends a fresh block, so fresh addresses never collide with
live ones. -/

structure Heap where
  blocks : List (Option Block)
deriving Repr, DecidableEq

def Heap.get (h : Heap) (a : Nat) : Option Block :=
  h.blocks.getD a none

def Heap.set (h : Heap) (a : Nat) (b : Option Block) : Heap :=
  ⟨h.blocks.set a b⟩

def Heap.alloc (h : Heap) (b : Block) : Heap × Nat :=
  (⟨h.blocks ++ [some b]⟩, h.blocks.length)

def ds_alloc (h : Heap) (length : Nat) : Heap × Nat :=
  h.alloc ⟨1, List.replicate length 0⟩

/-- Embedding of `ds_length` (line 576).  A dangling address (undefined
behavior in C) defaults to 0. -/

def ds_length (h : Heap) (str : Option Nat) : Nat :=
  match str with
  | none => 0
  | some a =>
    match h.get a with
    | some b => b.data.length
    | none => 0

/-- Embedding of `ds_refcount` (line 578). -/

def ds_refcount (h : Heap) (str : Option Nat) : Nat :=
  match str with
  | none => 0
  | some a =>
    match h.get a with
    | some b => b.refcount
    | none => 0

/-- Stored content bytes reachable through a handle (the observable the
claims speak about); `none` and dangling addresses give the empty content. -/

def contentBytes (h : Heap) (str : Option Nat) : List Byte :=
  match str with
  | none => []
  | some a =>
    match h.get a with
    | some b => b.data
    | none => []

/-- Embedding of `ds_create_length` (lines 592-600): allocates and copies
`length` bytes from the buffer.  The result is never NULL, so the address is
returned directly.  A buffer shorter than `length` would be undefined
behavior in C; the missing bytes are modelled as zeros. -/

def ds_create_length (h : Heap) (text : Option (List Byte)) (length : Nat) :
    Heap × Nat :=
  let p := ds_alloc h length
  match text with
  | some t =>
    if 0 < length then
      (p.1.set p.2 (some ⟨1, t.take length ++ List.replicate (length - t.length) 0⟩),
       p.2)
    else (p.1, p.2)
  | none => (p.1, p.2)

/-- Embedding of `ds_new` (lines 584-590). -/

def ds_new (h : Heap) (text : Option (List Byte)) : Heap × Option Nat :=
  match text with
  | none => (h, none)
  | some t =>
    let p := ds_create_length h (some t) (cstrBytes t).length
    (p.1, some p.2)

/-- Embedding of `ds_retain` (lines 602-607).  A dangling address (undefined
behavior in C) leaves the heap unchanged. -/

def ds_retain (h : Heap) (str : Option Nat) : Heap × Option Nat :=
  match str with
  | none => (h, none)
  | some a =>
    match h.get a with
    | some b => (h.set a (some ⟨b.refcount + 1, b.data⟩), some a)
    | none => (h, some a)

/-- Embedding of `ds_release` (lines 609-618).  Takes the value of the
caller's handle and returns the new heap together with the new value of that
handle (the C clears it through a pointer; it is always NULL afterwards).
Live blocks always have `refcount ≥ 1`; releasing a dangling address is
undefined behavior in C and leaves the heap unchanged here. -/

def ds_release (h : Heap) (str : Option Nat) : Heap × Option Nat :=
  match str with
  | none => (h, none)
  | some a =>
    match h.get a with
    | none => (h, none)
    | some b =>
      if b.refcount - 1 = 0 then (h.set a none, none)
      else (h.set a (some ⟨b.refcount - 1, b.data⟩), none)

/-- Embedding of `ds_append` (lines 620-642). -/

def ds_append (h : Heap) (str : Option Nat) (text : Option (List Byte)) :
    Heap × Option Nat :=
  match text with
  | none =>
    match str with
    | some a => ds_retain h (some a)
    | none => (h, none)
  | some t =>
    match str with
    | none => ds_new h (some t)
    | some a =>
      let tl := cstrBytes t
      if tl.length = 0 then ds_retain h (some a)
      else
        match h.get a with
        | none => (h, none)
        | some b =>
          let p := ds_alloc h (b.data.length + tl.length)
          (p.1.set p.2 (some ⟨1, b.data ++ tl⟩), some p.2)

/-- Embedding of `ds_prepend` (lines 686-708). -/

def ds_prepend (h : Heap) (str : Option Nat) (text : Option (List Byte)) :
    Heap × Option Nat :=
  match text with
  | none =>
    match str with
    | some a => ds_retain h (some a)
    | none => (h, none)
  | some t =>
    match str with
    | none => ds_new h (some t)
    | some a =>
      let tl := cstrBytes t
      if tl.length = 0 then ds_retain h (some a)
      else
        match h.get a with
        | none => (h, none)
        | some b =>
          let p := ds_alloc h (b.data.length + tl.length)
          (p.1.set p.2 (some ⟨1, tl ++ b.data⟩), some p.2)

/-- Embedding of `ds_insert` (lines 710-732): a NULL string or NULL text or
an index beyond the length returns a retained original (or NULL); otherwise a
fresh block is filled with the three parts. -/

def ds_insert (h : Heap) (str : Option Nat) (index : Nat)
    (text : Option (List Byte)) : Heap × Option Nat :=
  match str with
  | none => (h, none)
  | some a =>
    match text with
    | none => ds_retain h (some a)
    | some t =>
      match h.get a with
      | none => (h, none)
      | some b =>
        if index > b.data.length then ds_retain h (some a)
        else
          let tl := cstrBytes t
          if tl.length = 0 then ds_retain h (some a)
          else
            let p := ds_alloc h (b.data.length + tl.length)
            (p.1.set p.2 (some ⟨1, b.data.take index ++ tl ++ b.data.drop index⟩),
             some p.2)

/-- Embedding of `ds_substring` (lines 734-745). -/

def ds_substring (h : Heap) (str : Option Nat) (start len : Nat) :
    Heap × Option Nat :=
  match str with
  | none =>
    let p := ds_new h (some [])
    p
  | some a =>
    match h.get a with
    | none => ds_new h (some [])
    | some b =>
      if start ≥ b.data.length then ds_new h (some [])
      else
        let len' := if start + len > b.data.length then b.data.length - start else len
        let p := ds_create_length h (some (b.data.drop start)) len'
        (p.1, some p.2)

/-- Byte-wise `strcmp` on NUL-terminated byte sequences, stopping at the
first difference or at a NUL; the value is the difference of the first
differing bytes (only its sign is the C contract).  The callers always pass
lists ending in the terminator 0, so the fall-through cases are
unreachable. -/

def strcmpBytes : List Byte → List Byte → Int
  | x :: xs, y :: ys =>
    if x ≠ y then (x : Int) - (y : Int)
    else if x = 0 then 0
    else strcmpBytes xs ys
  | [], [] => 0
  | [], _ :: _ => 0
  | _ :: _, [] => 0

/-- Embedding of `ds_compare` (lines 790-799): identity fast path on the
handles, then `strcmp` on the NUL-terminated data (a NULL handle compares as
the empty C string). -/

def ds_compare (h : Heap) (a b : Option Nat) : Int :=
  if a = b then 0
  else strcmpBytes (contentBytes h a ++ [0]) (contentBytes h b ++ [0])

/-- Embedding of `ds_stringbuilder` (dynamic_string.h lines 484-487). -/

structure ds_stringbuilder where
  data : Option Nat
  capacity : Nat
deriving Repr, DecidableEq

/-- The doubling loop of `ds_sb_ensure_capacity` (lines 1358-1360): double
`cap` until it reaches `needed`.  The C loop never terminates when entered
with capacity 0; all callers start from a positive capacity (the
`DS_SB_INITIAL_CAPACITY` floor), and the `cap = 0` branch only totalizes the
function. -/

def growCap (cap needed : Nat) : Nat :=
  if h0 : cap = 0 then 0
  else if h1 : cap < needed then growCap (cap * 2) needed
  else cap
termination_by needed - cap
decreasing_by omega

/-- Embedding of `ds_sb_ensure_capacity` (lines 1349-1370): a no-op when the
capacity suffices, otherwise geometric growth from the current capacity (or
the default floor 32 when it is zero) followed by an in-place resize.  The
resize preserves the block's metadata and content, so only the tracked
capacity changes; reallocation failure is fatal in C (`DS_ASSERT`), hence the
result flag is always 1. -/

def ds_sb_ensure_capacity (h : Heap) (sb : ds_stringbuilder)
    (required_capacity : Nat) : Heap × ds_stringbuilder × Nat :=
  if sb.capacity ≥ required_capacity then (h, sb, 1)
  else
    let start := if sb.capacity = 0 then 32 else sb.capacity
    (h, ⟨sb.data, growCap start required_capacity⟩, 1)

/-- Embedding of `ds_sb_ensure_unique` (lines 1372-1397): with a shared block
(refcount above 1), allocate a block of exactly the current length, copy the
content, release the old block, and adopt the copy with capacity length+1. -/

def ds_sb_ensure_unique (h : Heap) (sb : ds_stringbuilder) :
    Heap × ds_stringbuilder × Nat :=
  match sb.data with
  | none => (h, sb, 0)
  | some a =>
    match h.get a with
    | none => (h, sb, 0)
    | some b =>
      if b.refcount ≤ 1 then (h, sb, 1)
      else
        let p := ds_alloc h b.data.length
        let h1 := p.1.set p.2 (some ⟨1, b.data⟩)
        let q := ds_release h1 (some a)
        (q.1, ⟨some p.2, b.data.length + 1⟩, 1)

/-- Embedding of `ds_builder_create_with_capacity` (lines 1401-1419): a zero
request falls back to `DS_SB_INITIAL_CAPACITY` (32); the block starts with
refcount 1 and length 0. -/

def ds_builder_create_with_capacity (h : Heap) (capacity : Nat) :
    Heap × ds_stringbuilder :=
  let cap := if capacity = 0 then 32 else capacity
  let p := h.alloc ⟨1, []⟩
  (p.1, ⟨some p.2, cap⟩)

/-- Embedding of `ds_builder_create` (line 1399). -/

def ds_builder_create (h : Heap) : Heap × ds_stringbuilder :=
  ds_builder_create_with_capacity h 32

/-- Embedding of `ds_builder_destroy` (lines 1421-1426). -/

def ds_builder_destroy (h : Heap) (sb : ds_stringbuilder) :
    Heap × ds_stringbuilder :=
  let q := ds_release h sb.data
  (q.1, ⟨q.2, 0⟩)

/-- Embedding of `ds_builder_length` (lines 1563-1568). -/

def ds_builder_length (h : Heap) (sb : ds_stringbuilder) : Nat :=
  match sb.data with
  | none => 0
  | some a =>
    match h.get a with
    | some b => b.data.length
    | none => 0

/-- Embedding of `ds_builder_capacity` (line 1570). -/

def ds_builder_capacity (sb : ds_stringbuilder) : Nat :=
  sb.capacity

/-- The block the builder currently owns or shares, if any. -/

def sbBlock (h : Heap) (sb : ds_stringbuilder) : Option Block :=
  match sb.data with
  | none => none
  | some a => h.get a

/-- Embedding of `ds_builder_append` (lines 1428-1449).  The NULL-builder
branch is not modelled (the builder is a value); a NULL text or a consumed
builder returns 0, empty text returns 1 immediately, and otherwise the call
resolves uniqueness, ensures capacity for length + text length + 1, and
copies the text after the current content. -/

def ds_builder_append (h : Heap) (sb : ds_stringbuilder)
    (text : Option (List Byte)) : Heap × ds_stringbuilder × Nat :=
  match text with
  | none => (h, sb, 0)
  | some t =>
    match sb.data with
    | none => (h, sb, 0)
    | some _ =>
      let tl := cstrBytes t
      if tl.length = 0 then (h, sb, 1)
      else
        let u := ds_sb_ensure_unique h sb
        if u.2.2 = 0 then (u.1, u.2.1, 0)
        else
          match u.2.1.data with
          | none => (u.1, u.2.1, 0)
          | some a =>
            match u.1.get a with
            | none => (u.1, u.2.1, 0)
            | some b =>
              let e := ds_sb_ensure_capacity u.1 u.2.1 (b.data.length + tl.length + 1)
              (e.1.set a (some ⟨b.refcount, b.data ++ tl⟩), e.2.1, 1)

/-- Embedding of `ds_builder_append_char` (lines 1451-1471): encodes the
codepoint (an invalid one becomes U+FFFD) and appends the encoded bytes;
uniqueness is resolved on every call. -/

def ds_builder_append_char (h : Heap) (sb : ds_stringbuilder)
    (codepoint : Nat) : Heap × ds_stringbuilder × Nat :=
  match sb.data with
  | none => (h, sb, 0)
  | some _ =>
    let buf := ds_encode_utf8 codepoint
    let u := ds_sb_ensure_unique h sb
    if u.2.2 = 0 then (u.1, u.2.1, 0)
    else
      match u.2.1.data with
      | none => (u.1, u.2.1, 0)
      | some a =>
        match u.1.get a with
        | none => (u.1, u.2.1, 0)
        | some b =>
          let e := ds_sb_ensure_capacity u.1 u.2.1 (b.data.length + buf.length + 1)
          (e.1.set a (some ⟨b.refcount, b.data ++ buf⟩), e.2.1, 1)

/-- Embedding of `ds_builder_append_string` (lines 1473-1492): a NULL string
returns 0; uniqueness is resolved unconditionally (also for an empty
argument), then the stored bytes of `str` (embedded NULs included) are
appended.  A consumed builder fails inside `ds_sb_ensure_unique`; a dangling
`str` block (undefined behavior in C) returns 0 here. -/

def ds_builder_append_string (h : Heap) (sb : ds_stringbuilder)
    (str : Option Nat) : Heap × ds_stringbuilder × Nat :=
  match str with
  | none => (h, sb, 0)
  | some s =>
    let u := ds_sb_ensure_unique h sb
    if u.2.2 = 0 then (u.1, u.2.1, 0)
    else
      match u.2.1.data with
      | none => (u.1, u.2.1, 0)
      | some a =>
        match u.1.get a, u.1.get s with
        | some b, some bs =>
          let e := ds_sb_ensure_capacity u.1 u.2.1 (b.data.length + bs.data.length + 1)
          (e.1.set a (some ⟨b.refcount, b.data ++ bs.data⟩), e.2.1, 1)
        | _, _ => (u.1, u.2.1, 0)

/-- Embedding of `ds_builder_insert` (lines 1494-1521): the index bound is
checked against the length read before anything else; an index beyond the
length fails with 0 and changes nothing.  The capacity requirement uses that
same pre-`ensure_unique` length value, exactly as the stale `meta` pointer
in the C code does (the copy has the same length, so the value agrees). -/

def ds_builder_insert (h : Heap) (sb : ds_stringbuilder) (index : Nat)
    (text : Option (List Byte)) : Heap × ds_stringbuilder × Nat :=
  match text with
  | none => (h, sb, 0)
  | some t =>
    match sb.data with
    | none => (h, sb, 0)
    | some a0 =>
      match h.get a0 with
      | none => (h, sb, 0)
      | some b0 =>
        if index > b0.data.length then (h, sb, 0)
        else
          let tl := cstrBytes t
          if tl.length = 0 then (h, sb, 1)
          else
            let u := ds_sb_ensure_unique h sb
            if u.2.2 = 0 then (u.1, u.2.1, 0)
            else
              let e := ds_sb_ensure_capacity u.1 u.2.1 (b0.data.length + tl.length + 1)
              match e.2.1.data with
              | none => (e.1, e.2.1, 0)
              | some a =>
                match e.1.get a with
                | none => (e.1, e.2.1, 0)
                | some b =>
                  (e.1.set a
                    (some ⟨b.refcount, b.data.take index ++ tl ++ b.data.drop index⟩),
                   e.2.1, 1)

/-- Embedding of `ds_builder_clear` (lines 1523-1533): resolves uniqueness,
then resets the length to 0 (capacity is kept). -/

def ds_builder_clear (h : Heap) (sb : ds_stringbuilder) :
    Heap × ds_stringbuilder :=
  match sb.data with
  | none => (h, sb)
  | some _ =>
    let u := ds_sb_ensure_unique h sb
    if u.2.2 = 0 then (u.1, u.2.1)
    else
      match u.2.1.data with
      | none => (u.1, u.2.1)
      | some a =>
        match u.1.get a with
        | none => (u.1, u.2.1)
        | some b => (u.1.set a (some ⟨b.refcount, []⟩), u.2.1)

/-- Embedding of `ds_builder_to_string` (lines 1535-1561): hands the block to
the caller (the in-place shrink keeps refcount, length and content; the
tracked capacity dies with the builder) and marks the builder consumed. -/

def ds_builder_to_string (h : Heap) (sb : ds_stringbuilder) :
    Heap × ds_stringbuilder × Option Nat :=
  match sb.data with
  | none => (h, sb, none)
  | some a => (h, ⟨none, 0⟩, some a)

def retainN (h : Heap) (a : Nat) : Nat → Heap
  | 0 => h
  | n + 1 => retainN (ds_retain h (some a)).1 a n

def releaseN (h : Heap) (a : Nat) : Nat → Heap
  | 0 => h
  | m + 1 => releaseN (ds_release h (some a)).1 a m

def appendChars (h : Heap) (sb : ds_stringbuilder) : List Nat →
    Heap × ds_stringbuilder
  | [] => (h, sb)
  | c :: cs =>
    let q := ds_builder_append_char h sb c
    appendChars q.1 q.2.1 cs

theorem land_two_pow_sub_one (x n : Nat) : x &&& (2 ^ n - 1) = x % 2 ^ n := by
  apply Nat.eq_of_testBit_eq
  intro i
  rw [Nat.testBit_land, Nat.testBit_two_pow_sub_one, Nat.testBit_mod_two_pow,
    Bool.and_comm]

/-- Oring a multiple of `2 ^ n` with a number below `2 ^ n` is addition. -/

theorem lor_mul_two_pow_add (n : Nat) :
    ∀ a b : Nat, b < 2 ^ n → (a * 2 ^ n) ||| b = a * 2 ^ n + b := by
  induction n with
  | zero =>
    intro a b hb
    have hb0 : b = 0 := by omega
    subst hb0
    simp [Nat.or_zero]
  | succ n ih =>
    intro a b hb
    have hb_eq : 2 * b.div2 + b.bodd.toNat = b := by
      rw [← Nat.bit_val]
      exact Nat.bit_decomp b
    have htn : b.bodd.toNat ≤ 1 := by cases b.bodd <;> simp
    have hpow : 2 ^ (n + 1) = 2 ^ n * 2 := Nat.pow_succ 2 n
    have hdiv : b.div2 < 2 ^ n := by omega
    have ha : Nat.bit false (a * 2 ^ n) = a * 2 ^ (n + 1) := by
      rw [Nat.bit_val, hpow]
      simp
      ring
    calc (a * 2 ^ (n + 1)) ||| b
        = Nat.bit false (a * 2 ^ n) ||| Nat.bit b.bodd b.div2 := by
          rw [ha, Nat.bit_decomp]
      _ = Nat.bit (false || b.bodd) ((a * 2 ^ n) ||| b.div2) :=
          Nat.lor_bit false (a * 2 ^ n) b.bodd b.div2
      _ = Nat.bit b.bodd (a * 2 ^ n + b.div2) := by
          rw [Bool.false_or, ih a b.div2 hdiv]
      _ = 2 * (a * 2 ^ n + b.div2) + b.bodd.toNat := Nat.bit_val b.bodd _
      _ = a * 2 ^ (n + 1) + b := by
          have h2 : a * 2 ^ (n + 1) = 2 * (a * 2 ^ n) := by
            rw [hpow]
            ring
          omega

theorem shiftLeft6_eq (x : Nat) : x <<< 6 = x * 64 := by
  rw [Nat.shiftLeft_eq]

theorem shiftLeft12_eq (x : Nat) : x <<< 12 = x * 4096 := by
  rw [Nat.shiftLeft_eq]

theorem shiftLeft18_eq (x : Nat) : x <<< 18 = x * 262144 := by
  rw [Nat.shiftLeft_eq]

theorem lor_mul_64 (k z : Nat) (hz : z < 64) : (k * 64) ||| z = k * 64 + z := by
  have hp : (2 : Nat) ^ 6 = 64 := by norm_num
  have hz6 : z < 2 ^ 6 := by rw [hp]; exact hz
  have h := lor_mul_two_pow_add 6 k z hz6
  rw [hp] at h
  exact h

theorem lor_mul_4096 (k z : Nat) (hz : z < 4096) : (k * 4096) ||| z = k * 4096 + z := by
  have hp : (2 : Nat) ^ 12 = 4096 := by norm_num
  have hz12 : z < 2 ^ 12 := by rw [hp]; exact hz
  have h := lor_mul_two_pow_add 12 k z hz12
  rw [hp] at h
  exact h

theorem lor_mul_262144 (k z : Nat) (hz : z < 262144) :
    (k * 262144) ||| z = k * 262144 + z := by
  have hp : (2 : Nat) ^ 18 = 262144 := by norm_num
  have hz18 : z < 2 ^ 18 := by rw [hp]; exact hz
  have h := lor_mul_two_pow_add 18 k z hz18
  rw [hp] at h
  exact h

theorem land_3F (x : Nat) : x &&& 0x3F = x % 64 := land_two_pow_sub_one x 6

theorem lor_C0_small : ∀ x < 32, 0xC0 ||| x = 0xC0 + x := by decide

theorem lor_E0_small : ∀ x < 16, 0xE0 ||| x = 0xE0 + x := by decide

theorem lor_F0_small : ∀ x < 8, 0xF0 ||| x = 0xF0 + x := by decide

theorem lor_80_small : ∀ x < 64, 0x80 ||| x = 0x80 + x := by decide

theorem land_C0_E0 : ∀ x < 32, (0xC0 + x) &&& 0xE0 = 0xC0 := by decide

theorem land_C0_1F : ∀ x < 32, (0xC0 + x) &&& 0x1F = x := by decide

theorem land_80_3F : ∀ x < 64, (0x80 + x) &&& 0x3F = x := by decide

theorem land_E0_E0 : ∀ x < 16, (0xE0 + x) &&& 0xE0 = 0xE0 := by decide

theorem land_E0_F0 : ∀ x < 16, (0xE0 + x) &&& 0xF0 = 0xE0 := by decide

theorem land_E0_0F : ∀ x < 16, (0xE0 + x) &&& 0x0F = x := by decide

theorem land_F0_E0 : ∀ x < 8, (0xF0 + x) &&& 0xE0 = 0xE0 := by decide

theorem land_F0_F0 : ∀ x < 8, (0xF0 + x) &&& 0xF0 = 0xF0 := by decide

theorem land_F0_F8 : ∀ x < 8, (0xF0 + x) &&& 0xF8 = 0xF0 := by decide

theorem land_F0_07 : ∀ x < 8, (0xF0 + x) &&& 0x07 = x := by decide

/-- The two-byte encoding, in divide-and-remainder form. -/

theorem encode_two_bytes (c : Nat) (h1 : 0x80 ≤ c) (h2 : c ≤ 0x7FF) :
    ds_encode_utf8 c = [0xC0 + c / 64, 0x80 + c % 64] := by
  have hdiv : c >>> 6 = c / 64 := Nat.shiftRight_eq_div_pow c 6
  have hlt : c / 64 < 32 := by omega
  rw [ds_encode_utf8, if_neg (by omega), if_pos h2, hdiv, land_3F,
    lor_C0_small _ hlt, lor_80_small _ (Nat.mod_lt c (by omega))]

/-- The three-byte encoding, in divide-and-remainder form. -/

theorem encode_three_bytes (c : Nat) (h1 : 0x800 ≤ c) (h2 : c ≤ 0xFFFF) :
    ds_encode_utf8 c = [0xE0 + c / 4096, 0x80 + c / 64 % 64, 0x80 + c % 64] := by
  have hd12 : c >>> 12 = c / 4096 := Nat.shiftRight_eq_div_pow c 12
  have hd6 : c >>> 6 = c / 64 := Nat.shiftRight_eq_div_pow c 6
  have hlt : c / 4096 < 16 := by omega
  rw [ds_encode_utf8, if_neg (by omega), if_neg (by omega), if_pos h2, hd12, hd6,
    land_3F, land_3F, lor_E0_small _ hlt,
    lor_80_small _ (Nat.mod_lt (c / 64) (by omega)),
    lor_80_small _ (Nat.mod_lt c (by omega))]

/-- The four-byte encoding, in divide-and-remainder form. -/

theorem encode_four_bytes (c : Nat) (h1 : 0x10000 ≤ c) (h2 : c ≤ 0x10FFFF) :
    ds_encode_utf8 c =
      [0xF0 + c / 262144, 0x80 + c / 4096 % 64, 0x80 + c / 64 % 64, 0x80 + c % 64] := by
  have hd18 : c >>> 18 = c / 262144 := Nat.shiftRight_eq_div_pow c 18
  have hd12 : c >>> 12 = c / 4096 := Nat.shiftRight_eq_div_pow c 12
  have hd6 : c >>> 6 = c / 64 := Nat.shiftRight_eq_div_pow c 6
  have hlt : c / 262144 < 8 := by omega
  rw [ds_encode_utf8, if_neg (by omega), if_neg (by omega), if_neg (by omega),
    if_pos h2, hd18, hd12, hd6, land_3F, land_3F, land_3F, lor_F0_small _ hlt,
    lor_80_small _ (Nat.mod_lt (c / 4096) (by omega)),
    lor_80_small _ (Nat.mod_lt (c / 64) (by omega)),
    lor_80_small _ (Nat.mod_lt c (by omega))]

/-- Decoding a well-formed two-byte sequence. -/

theorem decode_two_bytes (x y : Nat) (hx : x < 32) (hy : y < 64) :
    ds_decode_utf8_at [0xC0 + x, 0x80 + y] 0 2 = (x * 64 + y, 2) := by
  have hb0 : ([0xC0 + x, 0x80 + y] : List Byte).getD 0 0 = 0xC0 + x := rfl
  have hb1 : ([0xC0 + x, 0x80 + y] : List Byte).getD (0 + 1) 0 = 0x80 + y := rfl
  rw [ds_decode_utf8_at]
  rw [if_neg (show ¬ (0 ≥ 2) by omega)]
  simp only [hb0, hb1]
  rw [if_neg (show ¬ (0xC0 + x ≤ 0x7F) by omega), if_pos (land_C0_E0 x hx),
    if_neg (show ¬ (0 + 1 ≥ 2) by omega)]
  rw [land_C0_1F x hx, land_80_3F y hy, shiftLeft6_eq x, lor_mul_64 x y hy]

/-- Decoding a well-formed three-byte sequence. -/

theorem decode_three_bytes (x y z : Nat) (hx : x < 16) (hy : y < 64) (hz : z < 64) :
    ds_decode_utf8_at [0xE0 + x, 0x80 + y, 0x80 + z] 0 3 =
      ((x * 64 + y) * 64 + z, 3) := by
  have hb0 : ([0xE0 + x, 0x80 + y, 0x80 + z] : List Byte).getD 0 0 = 0xE0 + x := rfl
  have hb1 : ([0xE0 + x, 0x80 + y, 0x80 + z] : List Byte).getD (0 + 1) 0 = 0x80 + y := rfl
  have hb2 : ([0xE0 + x, 0x80 + y, 0x80 + z] : List Byte).getD (0 + 2) 0 = 0x80 + z := rfl
  rw [ds_decode_utf8_at]
  rw [if_neg (show ¬ (0 ≥ 3) by omega)]
  simp only [hb0, hb1, hb2]
  rw [if_neg (show ¬ (0xE0 + x ≤ 0x7F) by omega),
    if_neg (show ¬ ((0xE0 + x) &&& 0xE0 = 0xC0) by rw [land_E0_E0 x hx]; omega),
    if_pos (land_E0_F0 x hx), if_neg (show ¬ (0 + 2 ≥ 3) by omega)]
  rw [land_E0_0F x hx, land_80_3F y hy, land_80_3F z hz]
  rw [shiftLeft12_eq x, shiftLeft6_eq y, lor_mul_4096 x (y * 64) (by omega)]
  have h3 : x * 4096 + y * 64 = (x * 64 + y) * 64 := by ring
  rw [h3, lor_mul_64 (x * 64 + y) z hz]

/-- Decoding a well-formed four-byte sequence. -/

theorem decode_four_bytes (w x y z : Nat) (hw : w < 8) (hx : x < 64) (hy : y < 64)
    (hz : z < 64) :
    ds_decode_utf8_at [0xF0 + w, 0x80 + x, 0x80 + y, 0x80 + z] 0 4 =
      (((w * 64 + x) * 64 + y) * 64 + z, 4) := by
  have hb0 : ([0xF0 + w, 0x80 + x, 0x80 + y, 0x80 + z] : List Byte).getD 0 0 = 0xF0 + w := rfl
  have hb1 : ([0xF0 + w, 0x80 + x, 0x80 + y, 0x80 + z] : List Byte).getD (0 + 1) 0 = 0x80 + x := rfl
  have hb2 : ([0xF0 + w, 0x80 + x, 0x80 + y, 0x80 + z] : List Byte).getD (0 + 2) 0 = 0x80 + y := rfl
  have hb3 : ([0xF0 + w, 0x80 + x, 0x80 + y, 0x80 + z] : List Byte).getD (0 + 3) 0 = 0x80 + z := rfl
  rw [ds_decode_utf8_at]
  rw [if_neg (show ¬ (0 ≥ 4) by omega)]
  simp only [hb0, hb1, hb2, hb3]
  rw [if_neg (show ¬ (0xF0 + w ≤ 0x7F) by omega),
    if_neg (show ¬ ((0xF0 + w) &&& 0xE0 = 0xC0) by rw [land_F0_E0 w hw]; omega),
    if_neg (show ¬ ((0xF0 + w) &&& 0xF0 = 0xE0) by rw [land_F0_F0 w hw]; omega),
    if_pos (land_F0_F8 w hw), if_neg (show ¬ (0 + 3 ≥ 4) by omega)]
  rw [land_F0_07 w hw, land_80_3F x hx, land_80_3F y hy, land_80_3F z hz]
  rw [shiftLeft18_eq w, shiftLeft12_eq x, shiftLeft6_eq y,
    lor_mul_262144 w (x * 4096) (by omega)]
  have h4 : w * 262144 + x * 4096 = (w * 64 + x) * 4096 := by ring
  rw [h4, lor_mul_4096 (w * 64 + x) (y * 64) (by omega)]
  have h6 : (w * 64 + x) * 4096 + y * 64 = ((w * 64 + x) * 64 + y) * 64 := by ring
  rw [h6, lor_mul_64 ((w * 64 + x) * 64 + y) z hz]

/-- Round trip of the codec on any codepoint in the valid range. -/

theorem encode_decode_valid (c : Nat) (hc : c ≤ 0x10FFFF) :
    ds_decode_utf8_at (ds_encode_utf8 c) 0 (ds_encode_utf8 c).length
      = (c, (ds_encode_utf8 c).length) := by
  by_cases h1 : c ≤ 0x7F
  · have hb0 : ([c] : List Byte).getD 0 0 = c := rfl
    rw [ds_encode_utf8, if_pos h1]
    simp only [List.length_singleton]
    rw [ds_decode_utf8_at]
    rw [if_neg (show ¬ (0 ≥ 1) by omega)]
    simp only [hb0]
    rw [if_pos h1]
  · by_cases h2 : c ≤ 0x7FF
    · rw [encode_two_bytes c (by omega) h2]
      simp only [List.length_cons, List.length_nil]
      rw [decode_two_bytes (c / 64) (c % 64) (by omega) (by omega)]
      congr 1
      omega
    · by_cases h3 : c ≤ 0xFFFF
      · rw [encode_three_bytes c (by omega) h3]
        simp only [List.length_cons, List.length_nil]
        rw [decode_three_bytes (c / 4096) (c / 64 % 64) (c % 64) (by omega)
          (by omega) (by omega)]
        congr 1
        omega
      · rw [encode_four_bytes c (by omega) hc]
        simp only [List.length_cons, List.length_nil]
        rw [decode_four_bytes (c / 262144) (c / 4096 % 64) (c / 64 % 64) (c % 64)
          (by omega) (by omega) (by omega) (by omega)]
        congr 1
        omega

/-- Encoding any codepoint above 0x10FFFF produces the replacement bytes. -/

theorem encode_invalid (c : Nat) (hc : 0x10FFFF < c) :
    ds_encode_utf8 c = [0xEF, 0xBF, 0xBD] := by
  rw [ds_encode_utf8, if_neg (by omega), if_neg (by omega), if_neg (by omega),
    if_neg (by omega)]

/-- Decoding the replacement bytes yields U+FFFD with three bytes consumed. -/

theorem decode_replacement : ds_decode_utf8_at [0xEF, 0xBF, 0xBD] 0 3 = (0xFFFD, 3) := by
  decide

/-- Claim C5: for every codepoint in the valid range outside the surrogates,
decoding the bytes produced by `ds_encode_utf8` (from position 0, with the end
at the encoded byte count) yields the codepoint back with `bytes_consumed`
equal to that count; every codepoint above 0x10FFFF encodes as the three bytes
EF BF BD, whose decoding yields 0xFFFD. -/

theorem c5_utf8_roundtrip :
    (∀ c : Nat, c ≤ 0x10FFFF → ¬ (0xD800 ≤ c ∧ c ≤ 0xDFFF) →
      ds_decode_utf8_at (ds_encode_utf8 c) 0 (ds_encode_utf8 c).length
        = (c, (ds_encode_utf8 c).length)) ∧
    (∀ c : Nat, 0x10FFFF < c →
      ds_encode_utf8 c = [0xEF, 0xBF, 0xBD] ∧
      ds_decode_utf8_at (ds_encode_utf8 c) 0 3 = (0xFFFD, 3)) := by
  constructor
  · intro c hc _
    exact encode_decode_valid c hc
  · intro c hc
    refine ⟨encode_invalid c hc, ?_⟩
    rw [encode_invalid c hc]
    exact decode_replacement

/-- Witness for claim C5 at the concrete codepoints 0x1F30D and 0x110000. -/

theorem c5_utf8_roundtrip_witness :
    ds_decode_utf8_at (ds_encode_utf8 0x1F30D) 0 (ds_encode_utf8 0x1F30D).length
      = (0x1F30D, (ds_encode_utf8 0x1F30D).length) ∧
    ds_encode_utf8 0x110000 = [0xEF, 0xBF, 0xBD] ∧
    ds_decode_utf8_at (ds_encode_utf8 0x110000) 0 3 = (0xFFFD, 3) :=
  ⟨c5_utf8_roundtrip.1 0x1F30D (by decide) (by decide),
   (c5_utf8_roundtrip.2 0x110000 (by decide)).1,
   (c5_utf8_roundtrip.2 0x110000 (by decide)).2⟩

/-- Embedding of `ds_codepoint_iter` (dynamic_string.h lines 433-437): a cursor
over a byte range. -/

theorem c10_truncated_tail_stuck (iter : ds_codepoint_iter)
    (hlt : iter.pos < iter.endPos)
    (htrunc : (ds_decode_utf8_at iter.data iter.pos iter.endPos).2 = 0) :
    ds_iter_next iter = (0, iter) ∧ ds_iter_has_next iter = 1 ∧
    ∀ n : Nat, ds_iter_step^[n] iter = iter := by
  have hnext : ds_iter_next iter = (0, iter) := by
    rw [ds_iter_next, if_neg (by omega)]
    simp only [htrunc]
    rfl
  refine ⟨hnext, ?_, ?_⟩
  · rw [ds_iter_has_next, if_pos hlt]
  · intro n
    induction n with
    | zero => rfl
    | succ n ih =>
      rw [Function.iterate_succ_apply, ds_iter_step, hnext, ih]

/-- Witness for claim C10: a string consisting of the single byte 0xC3, the
lead byte of a two-byte sequence with no continuation byte after it. -/

theorem c10_truncated_tail_stuck_witness :
    0 < 1 ∧ (ds_decode_utf8_at [0xC3] 0 1).2 = 0 ∧
    ds_iter_next ⟨[0xC3], 0, 1⟩ = (0, ⟨[0xC3], 0, 1⟩) ∧
    ds_iter_has_next ⟨[0xC3], 0, 1⟩ = 1 ∧
    ds_iter_step^[5] (⟨[0xC3], 0, 1⟩ : ds_codepoint_iter) = ⟨[0xC3], 0, 1⟩ := by
  have h := c10_truncated_tail_stuck ⟨[0xC3], 0, 1⟩ (by decide) (by decide)
  exact ⟨by decide, by decide, h.1, h.2.1, h.2.2 5⟩

/-- One allocation of `ds_alloc`/`DS_MALLOC`: the `refcount` metadata field
and the content bytes.  The `length` metadata field always equals
`data.length`, and the NUL terminator stored after the content is implicit in
the layout (it is reconstructed where `strcmp` needs it). -/

theorem getD_append_self (l : List (Option Block)) (x : Option Block) :
    (l ++ [x]).getD l.length none = x := by
  induction l with
  | nil => rfl
  | cons a l ih => simp only [List.cons_append, List.length_cons, List.getD_cons_succ, ih]

theorem getD_append_of_lt (l : List (Option Block)) (x : Option Block) (a : Nat)
    (ha : a < l.length) : (l ++ [x]).getD a none = l.getD a none := by
  induction l generalizing a with
  | nil => simp at ha
  | cons y l ih =>
    cases a with
    | zero => rfl
    | succ a => simpa using ih a (by simpa using ha)

theorem getD_set_self (l : List (Option Block)) (a : Nat) (x : Option Block)
    (ha : a < l.length) : (l.set a x).getD a none = x := by
  induction l generalizing a with
  | nil => simp at ha
  | cons y l ih =>
    cases a with
    | zero => rfl
    | succ a => simpa using ih a (by simpa using ha)

theorem getD_set_ne (l : List (Option Block)) (a a' : Nat) (x : Option Block)
    (hne : a ≠ a') : (l.set a x).getD a' none = l.getD a' none := by
  induction l generalizing a a' with
  | nil => rfl
  | cons y l ih =>
    cases a with
    | zero =>
      cases a' with
      | zero => omega
      | succ a' => rfl
    | succ a =>
      cases a' with
      | zero => rfl
      | succ a' => simpa using ih a a' (by omega)

theorem getD_of_ge (l : List (Option Block)) (a : Nat) (ha : l.length ≤ a) :
    l.getD a none = none := by
  induction l generalizing a with
  | nil => rfl
  | cons y l ih =>
    cases a with
    | zero => simp at ha
    | succ a => simpa using ih a (by simpa using ha)

theorem Heap.lt_of_get_some (h : Heap) (a : Nat) (b : Block)
    (hget : h.get a = some b) : a < h.blocks.length := by
  by_contra hcon
  rw [Heap.get, getD_of_ge h.blocks a (by omega)] at hget
  exact Option.noConfusion hget

theorem Heap.get_set_self (h : Heap) (a : Nat) (b : Option Block)
    (ha : a < h.blocks.length) : (h.set a b).get a = b :=
  getD_set_self h.blocks a b ha

theorem Heap.get_set_ne (h : Heap) (a a' : Nat) (b : Option Block)
    (hne : a ≠ a') : (h.set a b).get a' = h.get a' :=
  getD_set_ne h.blocks a a' b hne

theorem Heap.get_alloc_self (h : Heap) (b : Block) :
    (h.alloc b).1.get (h.alloc b).2 = some b :=
  getD_append_self h.blocks (some b)

theorem Heap.get_alloc_of_lt (h : Heap) (b : Block) (a : Nat)
    (ha : a < h.blocks.length) : (h.alloc b).1.get a = h.get a :=
  getD_append_of_lt h.blocks (some b) a ha

theorem Heap.length_set (h : Heap) (a : Nat) (b : Option Block) :
    (h.set a b).blocks.length = h.blocks.length := by
  simp [Heap.set]

/-- Embedding of `ds_alloc` (dynamic_string.h lines 543-558): one fresh block
with refcount 1 and `length` data bytes.  The C leaves the content bytes
uninitialized (only the terminator is written); they are modelled as zero
bytes, and every caller overwrites them before they are read. -/

theorem retain_get_self (h : Heap) (a : Nat) (b : Block)
    (hget : h.get a = some b) :
    (ds_retain h (some a)).1.get a = some ⟨b.refcount + 1, b.data⟩ := by
  simp only [ds_retain, hget]
  exact Heap.get_set_self h a _ (h.lt_of_get_some a b hget)

theorem alloc_set_fresh_get (h : Heap) (n : Nat) (c : Block) (a : Nat) (b : Block)
    (hget : h.get a = some b) :
    ((ds_alloc h n).1.set (ds_alloc h n).2 (some c)).get a = some b := by
  have ha := h.lt_of_get_some a b hget
  rw [Heap.get_set_ne _ _ _ _ (by simp only [ds_alloc, Heap.alloc]; omega)]
  exact (Heap.get_alloc_of_lt h _ a ha).trans hget

theorem create_length_get (h : Heap) (t : Option (List Byte)) (n a : Nat) (b : Block)
    (hget : h.get a = some b) : (ds_create_length h t n).1.get a = some b := by
  have ha := h.lt_of_get_some a b hget
  cases t with
  | none => exact (Heap.get_alloc_of_lt h _ a ha).trans hget
  | some tt =>
    rw [ds_create_length]
    by_cases hn : 0 < n
    · simp only [if_pos hn]
      exact alloc_set_fresh_get h n _ a b hget
    · simp only [if_neg hn]
      exact (Heap.get_alloc_of_lt h _ a ha).trans hget

theorem new_get (h : Heap) (t : Option (List Byte)) (a : Nat) (b : Block)
    (hget : h.get a = some b) : (ds_new h t).1.get a = some b := by
  cases t with
  | none => exact hget
  | some tt => exact create_length_get h (some tt) (cstrBytes tt).length a b hget

theorem contentBytes_of_get (h : Heap) (a : Nat) (r : Nat) (d : List Byte)
    (hget : h.get a = some ⟨r, d⟩) :
    contentBytes h (some a) = d ∧ ds_length h (some a) = d.length := by
  simp [contentBytes, ds_length, hget]

/-- Frame property of `ds_append`: the source block keeps its content. -/

theorem append_frame (h : Heap) (a : Nat) (b : Block) (text : Option (List Byte))
    (hget : h.get a = some b) :
    ∃ r', (ds_append h (some a) text).1.get a = some ⟨r', b.data⟩ := by
  cases text with
  | none => exact ⟨b.refcount + 1, retain_get_self h a b hget⟩
  | some t =>
    rw [ds_append]
    by_cases h0 : (cstrBytes t).length = 0
    · rw [if_pos h0]
      exact ⟨b.refcount + 1, retain_get_self h a b hget⟩
    · rw [if_neg h0]
      simp only [hget]
      exact ⟨b.refcount, alloc_set_fresh_get h _ _ a b hget⟩

/-- Frame property of `ds_prepend`. -/

theorem prepend_frame (h : Heap) (a : Nat) (b : Block) (text : Option (List Byte))
    (hget : h.get a = some b) :
    ∃ r', (ds_prepend h (some a) text).1.get a = some ⟨r', b.data⟩ := by
  cases text with
  | none => exact ⟨b.refcount + 1, retain_get_self h a b hget⟩
  | some t =>
    rw [ds_prepend]
    by_cases h0 : (cstrBytes t).length = 0
    · rw [if_pos h0]
      exact ⟨b.refcount + 1, retain_get_self h a b hget⟩
    · rw [if_neg h0]
      simp only [hget]
      exact ⟨b.refcount, alloc_set_fresh_get h _ _ a b hget⟩

/-- Frame property of `ds_insert`. -/

theorem insert_frame (h : Heap) (a : Nat) (b : Block) (index : Nat)
    (text : Option (List Byte)) (hget : h.get a = some b) :
    ∃ r', (ds_insert h (some a) index text).1.get a = some ⟨r', b.data⟩ := by
  cases text with
  | none => exact ⟨b.refcount + 1, retain_get_self h a b hget⟩
  | some t =>
    rw [ds_insert]
    simp only [hget]
    by_cases hidx : index > b.data.length
    · rw [if_pos hidx]
      exact ⟨b.refcount + 1, retain_get_self h a b hget⟩
    · rw [if_neg hidx]
      by_cases h0 : (cstrBytes t).length = 0
      · rw [if_pos h0]
        exact ⟨b.refcount + 1, retain_get_self h a b hget⟩
      · rw [if_neg h0]
        exact ⟨b.refcount, alloc_set_fresh_get h _ _ a b hget⟩

/-- Frame property of `ds_substring`. -/

theorem substring_frame (h : Heap) (a : Nat) (b : Block) (start len : Nat)
    (hget : h.get a = some b) :
    ∃ r', (ds_substring h (some a) start len).1.get a = some ⟨r', b.data⟩ := by
  rw [ds_substring]
  simp only [hget]
  by_cases hs : start ≥ b.data.length
  · rw [if_pos hs]
    exact ⟨b.refcount, new_get h (some []) a b hget⟩
  · rw [if_neg hs]
    exact ⟨b.refcount, create_length_get h _ _ a b hget⟩

/-- Claim C4: `ds_append`, `ds_prepend`, `ds_insert` and `ds_substring` leave
the length and byte content of the source string unchanged, whatever their
other arguments are. -/

theorem c4_immutability (h : Heap) (a : Nat) (b : Block)
    (hget : h.get a = some b) (text : Option (List Byte))
    (index start len : Nat) :
    (contentBytes (ds_append h (some a) text).1 (some a) = b.data ∧
     ds_length (ds_append h (some a) text).1 (some a) = b.data.length) ∧
    (contentBytes (ds_prepend h (some a) text).1 (some a) = b.data ∧
     ds_length (ds_prepend h (some a) text).1 (some a) = b.data.length) ∧
    (contentBytes (ds_insert h (some a) index text).1 (some a) = b.data ∧
     ds_length (ds_insert h (some a) index text).1 (some a) = b.data.length) ∧
    (contentBytes (ds_substring h (some a) start len).1 (some a) = b.data ∧
     ds_length (ds_substring h (some a) start len).1 (some a) = b.data.length) := by
  obtain ⟨r1, h1⟩ := append_frame h a b text hget
  obtain ⟨r2, h2⟩ := prepend_frame h a b text hget
  obtain ⟨r3, h3⟩ := insert_frame h a b index text hget
  obtain ⟨r4, h4⟩ := substring_frame h a b start len hget
  exact ⟨contentBytes_of_get _ a r1 b.data h1, contentBytes_of_get _ a r2 b.data h2,
    contentBytes_of_get _ a r3 b.data h3, contentBytes_of_get _ a r4 b.data h4⟩

/-- Witness for claim C4 on a one-byte string with concrete arguments. -/

theorem c4_immutability_witness :
    (contentBytes (ds_append ⟨[some ⟨1, [72]⟩]⟩ (some 0) (some [33])).1 (some 0)
       = [72] ∧
     ds_length (ds_append ⟨[some ⟨1, [72]⟩]⟩ (some 0) (some [33])).1 (some 0) = 1) ∧
    (contentBytes (ds_prepend ⟨[some ⟨1, [72]⟩]⟩ (some 0) (some [33])).1 (some 0)
       = [72] ∧
     ds_length (ds_prepend ⟨[some ⟨1, [72]⟩]⟩ (some 0) (some [33])).1 (some 0) = 1) ∧
    (contentBytes (ds_insert ⟨[some ⟨1, [72]⟩]⟩ (some 0) 0 (some [33])).1 (some 0)
       = [72] ∧
     ds_length (ds_insert ⟨[some ⟨1, [72]⟩]⟩ (some 0) 0 (some [33])).1 (some 0) = 1) ∧
    (contentBytes (ds_substring ⟨[some ⟨1, [72]⟩]⟩ (some 0) 0 1).1 (some 0)
       = [72] ∧
     ds_length (ds_substring ⟨[some ⟨1, [72]⟩]⟩ (some 0) 0 1).1 (some 0) = 1) :=
  c4_immutability ⟨[some ⟨1, [72]⟩]⟩ 0 ⟨1, [72]⟩ rfl (some [33]) 0 0 1

/-- Claim C1 (failing input): the spec and the repository's unit tests expect
`ds_insert` beyond the end to clamp to an append, but the code returns a
retained alias of the original: inserting "Bad" at index 100 of "Hello"
yields "Hello", not "HelloBad". -/

theorem c1_insert_beyond_returns_original :
    (ds_insert
        (ds_create_length ⟨[]⟩ (some [72, 101, 108, 108, 111]) 5).1
        (some (ds_create_length ⟨[]⟩ (some [72, 101, 108, 108, 111]) 5).2)
        100 (some [66, 97, 100])).2
      = some (ds_create_length ⟨[]⟩ (some [72, 101, 108, 108, 111]) 5).2 ∧
    contentBytes
        (ds_insert
          (ds_create_length ⟨[]⟩ (some [72, 101, 108, 108, 111]) 5).1
          (some (ds_create_length ⟨[]⟩ (some [72, 101, 108, 108, 111]) 5).2)
          100 (some [66, 97, 100])).1
        (ds_insert
          (ds_create_length ⟨[]⟩ (some [72, 101, 108, 108, 111]) 5).1
          (some (ds_create_length ⟨[]⟩ (some [72, 101, 108, 108, 111]) 5).2)
          100 (some [66, 97, 100])).2
      = [72, 101, 108, 108, 111] ∧
    contentBytes
        (ds_insert
          (ds_create_length ⟨[]⟩ (some [72, 101, 108, 108, 111]) 5).1
          (some (ds_create_length ⟨[]⟩ (some [72, 101, 108, 108, 111]) 5).2)
          100 (some [66, 97, 100])).1
        (ds_insert
          (ds_create_length ⟨[]⟩ (some [72, 101, 108, 108, 111]) 5).1
          (some (ds_create_length ⟨[]⟩ (some [72, 101, 108, 108, 111]) 5).2)
          100 (some [66, 97, 100])).2
      ≠ [72, 101, 108, 108, 111, 66, 97, 100] := by
  decide

theorem retainN_get (n : Nat) : ∀ (h : Heap) (a r : Nat) (d : List Byte),
    h.get a = some ⟨r, d⟩ → (retainN h a n).get a = some ⟨r + n, d⟩ := by
  induction n with
  | zero => intro h a r d hget; simpa [retainN] using hget
  | succ n ih =>
    intro h a r d hget
    have h1 := retain_get_self h a ⟨r, d⟩ hget
    have h2 := ih (ds_retain h (some a)).1 a (r + 1) d h1
    rw [retainN, h2]
    congr 2
    omega

theorem release_get_live (h : Heap) (a r : Nat) (d : List Byte)
    (hget : h.get a = some ⟨r, d⟩) (hr : 2 ≤ r) :
    (ds_release h (some a)).1.get a = some ⟨r - 1, d⟩ ∧
    (ds_release h (some a)).2 = none := by
  simp only [ds_release, hget]
  rw [if_neg (show ¬ (r - 1 = 0) by omega)]
  exact ⟨Heap.get_set_self h a _ (h.lt_of_get_some a _ hget), rfl⟩

theorem release_get_last (h : Heap) (a : Nat) (d : List Byte)
    (hget : h.get a = some ⟨1, d⟩) :
    (ds_release h (some a)).1.get a = none ∧ (ds_release h (some a)).2 = none := by
  simp only [ds_release, hget]
  rw [if_pos trivial]
  exact ⟨Heap.get_set_self h a _ (h.lt_of_get_some a _ hget), rfl⟩

theorem releaseN_get (m : Nat) : ∀ (h : Heap) (a r : Nat) (d : List Byte),
    h.get a = some ⟨r, d⟩ → m < r →
    (releaseN h a m).get a = some ⟨r - m, d⟩ := by
  induction m with
  | zero => intro h a r d hget _; simpa [releaseN] using hget
  | succ m ih =>
    intro h a r d hget hm
    have h1 := (release_get_live h a r d hget (by omega)).1
    have h2 := ih (ds_release h (some a)).1 a (r - 1) d h1 (by omega)
    rw [releaseN, h2]
    congr 2
    omega

theorem create_length_get_self (h : Heap) (t : List Byte) (len : Nat) :
    (ds_create_length h (some t) len).1.get (ds_create_length h (some t) len).2
      = some ⟨1, t.take len ++ List.replicate (len - t.length) 0⟩ := by
  rw [ds_create_length]
  by_cases hn : 0 < len
  · simp only [if_pos hn]
    exact Heap.get_set_self _ _ _
      (by simp [ds_alloc, Heap.alloc, Heap.lt_of_get_some])
  · simp only [if_neg hn]
    have hlen : len = 0 := by omega
    subst hlen
    simpa [List.take] using Heap.get_alloc_self h ⟨1, List.replicate 0 0⟩

/-- Claim C3: a fresh string has refcount 1; after `n` retains and `m ≤ n`
releases the refcount reads `n + 1 - m`; the `(n+1)`-th release frees the
block and nulls the released handle, and a release through that null handle
changes nothing. -/

theorem c3_refcount_lifecycle (h h0 : Heap) (text : List Byte) (len a n m : Nat)
    (hc : ds_create_length h (some text) len = (h0, a)) (hm : m ≤ n) :
    ds_refcount (releaseN (retainN h0 a n) a m) (some a) = n + 1 - m ∧
    (ds_release (releaseN (retainN h0 a n) a n) (some a)).2 = none ∧
    ((ds_release (releaseN (retainN h0 a n) a n) (some a)).1).get a = none ∧
    ds_release ((ds_release (releaseN (retainN h0 a n) a n) (some a)).1) none
      = (((ds_release (releaseN (retainN h0 a n) a n) (some a)).1), none) := by
  have hget0 : h0.get a = some ⟨1, text.take len ++ List.replicate (len - text.length) 0⟩ := by
    have := create_length_get_self h text len
    rw [hc] at this
    exact this
  have hretain := retainN_get n h0 a 1 _ hget0
  constructor
  · have hrel := releaseN_get m (retainN h0 a n) a (1 + n) _ hretain (by omega)
    simp only [ds_refcount, hrel]
    omega
  · have hrel := releaseN_get n (retainN h0 a n) a (1 + n) _ hretain (by omega)
    have hone : (releaseN (retainN h0 a n) a n).get a
        = some ⟨1, text.take len ++ List.replicate (len - text.length) 0⟩ := by
      rw [hrel]
      congr 2
      omega
    have hlast := release_get_last _ a _ hone
    exact ⟨hlast.2, hlast.1, rfl⟩

/-- Witness for claim C3: the one-byte string "H", two retains, one release,
then the remaining releases. -/

theorem c3_refcount_lifecycle_witness :
    (1 : Nat) ≤ 2 ∧
    ds_refcount (releaseN (retainN ⟨[some ⟨1, [72]⟩]⟩ 0 2) 0 1) (some 0) = 2 ∧
    (ds_release (releaseN (retainN ⟨[some ⟨1, [72]⟩]⟩ 0 2) 0 2) (some 0)).2 = none ∧
    ((ds_release (releaseN (retainN ⟨[some ⟨1, [72]⟩]⟩ 0 2) 0 2) (some 0)).1).get 0
      = none := by
  have h := c3_refcount_lifecycle ⟨[]⟩ ⟨[some ⟨1, [72]⟩]⟩ [72] 1 0 2 1 (by decide)
    (by decide)
  exact ⟨by decide, h.1, h.2.1, h.2.2.1⟩

/-- Claim C9: inserting into a builder at an index strictly beyond the
current length fails with 0 and leaves the heap and the builder (hence
length, capacity and content) unchanged. -/

theorem c9_builder_insert_out_of_range (h : Heap) (sb : ds_stringbuilder)
    (a : Nat) (b : Block) (index : Nat) (t : List Byte)
    (hdata : sb.data = some a) (hget : h.get a = some b)
    (hidx : index > b.data.length) :
    ds_builder_insert h sb index (some t) = (h, sb, 0) := by
  obtain ⟨d, cap⟩ := sb
  simp only at hdata
  subst hdata
  simp only [ds_builder_insert, hget, if_pos hidx]

/-- Witness for claim C9 on a one-byte builder and index 5. -/

theorem c9_builder_insert_out_of_range_witness :
    ds_builder_insert ⟨[some ⟨1, [65]⟩]⟩ ⟨some 0, 4⟩ 5 (some [66])
      = (⟨[some ⟨1, [65]⟩]⟩, ⟨some 0, 4⟩, 0) :=
  c9_builder_insert_out_of_range ⟨[some ⟨1, [65]⟩]⟩ ⟨some 0, 4⟩ 0 ⟨1, [65]⟩ 5 [66]
    rfl rfl (by decide)

/-- Claim C8 (counterexample): a requested capacity of 0 does not produce
capacity 0; the builder falls back to the default capacity 32. -/

theorem c8_capacity_zero_counterexample :
    (ds_builder_create_with_capacity ⟨[]⟩ 0).2.capacity = 32 ∧
    (ds_builder_create_with_capacity ⟨[]⟩ 0).2.capacity ≠ 0 := by
  decide

/-- Claim C8 (amended): `ds_builder_create_with_capacity` returns a builder
whose capacity is exactly the requested value when that value is nonzero and
the default 32 when it is zero, whose logical length is 0, and whose block
has refcount 1. -/

theorem c8_create_with_capacity (h : Heap) (capacity : Nat) :
    (ds_builder_create_with_capacity h capacity).2.capacity
      = (if capacity = 0 then 32 else capacity) ∧
    ds_builder_length (ds_builder_create_with_capacity h capacity).1
      (ds_builder_create_with_capacity h capacity).2 = 0 ∧
    (sbBlock (ds_builder_create_with_capacity h capacity).1
      (ds_builder_create_with_capacity h capacity).2).map Block.refcount
      = some 1 := by
  have hg := Heap.get_alloc_self h ⟨1, []⟩
  refine ⟨rfl, ?_, ?_⟩
  · simp [ds_builder_create_with_capacity, ds_builder_length, hg]
  · simp [ds_builder_create_with_capacity, sbBlock, hg]

/-- Equality through `strcmp` is equality of the content up to the first NUL
byte. -/

theorem strcmpBytes_zero_iff : ∀ xs ys : List Byte,
    (strcmpBytes (xs ++ [0]) (ys ++ [0]) = 0 ↔ cstrBytes xs = cstrBytes ys) := by
  intro xs
  induction xs with
  | nil =>
    intro ys
    cases ys with
    | nil => simp [strcmpBytes]
    | cons y ys =>
      by_cases hy : y = 0
      · subst hy
        simp [strcmpBytes, cstrBytes, List.takeWhile_cons]
      · have h0y : (0 : Byte) ≠ y := Ne.symm hy
        have hval : strcmpBytes (([] : List Byte) ++ [0]) ((y :: ys) ++ [0])
            = (0 : Int) - (y : Int) := by
          simp [strcmpBytes, h0y]
        constructor
        · intro hc
          rw [hval] at hc
          exfalso
          have hy0 : (y : Int) = 0 := by omega
          exact hy (by exact_mod_cast hy0)
        · intro hc
          exfalso
          simp [cstrBytes, List.takeWhile_cons, hy] at hc
  | cons x xs ih =>
    intro ys
    cases ys with
    | nil =>
      by_cases hx : x = 0
      · subst hx
        simp [strcmpBytes, cstrBytes, List.takeWhile_cons]
      · have hval : strcmpBytes ((x :: xs) ++ [0]) (([] : List Byte) ++ [0])
            = (x : Int) - (0 : Int) := by
          simp [strcmpBytes, hx]
        constructor
        · intro hc
          rw [hval] at hc
          exfalso
          have hx0 : (x : Int) = 0 := by omega
          exact hx (by exact_mod_cast hx0)
        · intro hc
          exfalso
          simp [cstrBytes, List.takeWhile_cons, hx] at hc
    | cons y ys =>
      by_cases hxy : x = y
      · subst hxy
        by_cases hx : x = 0
        · subst hx
          simp [strcmpBytes, cstrBytes, List.takeWhile_cons]
        · have hstep : strcmpBytes ((x :: xs) ++ [0]) ((x :: ys) ++ [0])
              = strcmpBytes (xs ++ [0]) (ys ++ [0]) := by
            simp [strcmpBytes, hx]
          rw [hstep, ih ys]
          simp [cstrBytes, List.takeWhile_cons, hx]
      · have hne : strcmpBytes ((x :: xs) ++ [0]) ((y :: ys) ++ [0])
            = (x : Int) - (y : Int) := by
          simp [strcmpBytes, hxy]
        constructor
        · intro hc
          exfalso
          rw [hne] at hc
          exact hxy (by exact_mod_cast sub_eq_zero.mp hc)
        · intro hc
          exfalso
          by_cases hx : x = 0
          · subst hx
            simp [cstrBytes, List.takeWhile_cons, Ne.symm hxy] at hc
          · by_cases hy : y = 0
            · subst hy
              simp [cstrBytes, List.takeWhile_cons, hx] at hc
            · simp [cstrBytes, List.takeWhile_cons, hx, hy] at hc
              exact hxy hc.1

/-- Claim C6 (counterexample): two strings that differ only after an embedded
NUL byte compare equal under `ds_compare`, although their stored contents
differ; `strcmp` stops at the NUL. -/

theorem c6_compare_embedded_nul_counterexample :
    ds_compare (ds_create_length (ds_create_length ⟨[]⟩ (some [97, 0, 98]) 3).1
        (some [97, 0, 99]) 3).1
      (some (ds_create_length ⟨[]⟩ (some [97, 0, 98]) 3).2)
      (some (ds_create_length (ds_create_length ⟨[]⟩ (some [97, 0, 98]) 3).1
        (some [97, 0, 99]) 3).2) = 0 ∧
    contentBytes (ds_create_length (ds_create_length ⟨[]⟩ (some [97, 0, 98]) 3).1
        (some [97, 0, 99]) 3).1
      (some (ds_create_length ⟨[]⟩ (some [97, 0, 98]) 3).2)
      ≠ contentBytes (ds_create_length (ds_create_length ⟨[]⟩ (some [97, 0, 98]) 3).1
        (some [97, 0, 99]) 3).1
      (some (ds_create_length (ds_create_length ⟨[]⟩ (some [97, 0, 98]) 3).1
        (some [97, 0, 99]) 3).2) := by
  decide

/-- Claim C6 (amended): `ds_compare` agrees with `strcmp` of the
NUL-terminated byte sequences, so it returns 0 exactly when the two contents
truncated at their first embedded NUL agree (for NUL-free contents this is
full byte equality). -/

theorem c6_compare_iff_nul_truncated (h : Heap) (a b : Option Nat) :
    ds_compare h a b = 0 ↔
      cstrBytes (contentBytes h a) = cstrBytes (contentBytes h b) := by
  rw [ds_compare]
  by_cases hab : a = b
  · subst hab
    simp
  · rw [if_neg hab]
    exact strcmpBytes_zero_iff (contentBytes h a) (contentBytes h b)

/-- Both branches of `ds_sb_ensure_capacity` keep the heap and the data
handle and report success. -/

theorem ensure_capacity_eq (h : Heap) (dat : Option Nat) (c req : Nat) :
    ds_sb_ensure_capacity h ⟨dat, c⟩ req
      = (h, ⟨dat, if c ≥ req then c else growCap (if c = 0 then 32 else c) req⟩,
         1) := by
  rw [ds_sb_ensure_capacity]
  by_cases hc : c ≥ req
  · simp [hc]
  · simp [hc]

/-- Characterization of `ds_sb_ensure_unique` on a shared block: a fresh copy
at a fresh address `N`, the old block released to `refcount - 1`, everything
else untouched. -/

theorem ensure_unique_shared_facts (h : Heap) (a cap r : Nat) (d : List Byte)
    (hget : h.get a = some ⟨r, d⟩) (hr : 2 ≤ r) :
    ∃ h2 N, ds_sb_ensure_unique h ⟨some a, cap⟩ = (h2, ⟨some N, d.length + 1⟩, 1) ∧
      N ≠ a ∧ h2.get a = some ⟨r - 1, d⟩ ∧ h2.get N = some ⟨1, d⟩ ∧
      h2.blocks.length = h.blocks.length + 1 ∧ h.get N = none ∧
      (∀ s, s ≠ a → s ≠ N → h2.get s = h.get s) := by
  have ha := h.lt_of_get_some a _ hget
  have h1get : ((ds_alloc h d.length).1.set (ds_alloc h d.length).2
      (some ⟨1, d⟩)).get a = some ⟨r, d⟩ :=
    alloc_set_fresh_get h d.length ⟨1, d⟩ a ⟨r, d⟩ hget
  have hlen1 : ((ds_alloc h d.length).1.set (ds_alloc h d.length).2
      (some ⟨1, d⟩)).blocks.length = h.blocks.length + 1 := by
    simp [ds_alloc, Heap.alloc, Heap.set]
  refine ⟨((ds_alloc h d.length).1.set (ds_alloc h d.length).2
      (some ⟨1, d⟩)).set a (some ⟨r - 1, d⟩), h.blocks.length, ?_, by omega,
      ?_, ?_, ?_, getD_of_ge _ _ (by omega), ?_⟩
  · simp only [ds_sb_ensure_unique, hget]
    rw [if_neg (show ¬ (r ≤ 1) by omega)]
    simp only [ds_release, h1get]
    rw [if_neg (show ¬ (r - 1 = 0) by omega)]
    rfl
  · exact Heap.get_set_self _ a _ (by omega)
  · rw [Heap.get_set_ne _ _ _ _ (by omega)]
    exact Heap.get_set_self _ _ _
      (by simp [ds_alloc, Heap.alloc])
  · simp [Heap.set, hlen1]
    simp [ds_alloc, Heap.alloc]
  · intro s hsa hsN
    rw [Heap.get_set_ne _ _ _ _ (Ne.symm hsa)]
    rw [Heap.get_set_ne _ _ _ _
      (show (ds_alloc h d.length).2 ≠ s from Ne.symm hsN)]
    by_cases hs : s < h.blocks.length
    · exact Heap.get_alloc_of_lt h _ s hs
    · have hup : (ds_alloc h d.length).1.get s = none :=
        getD_of_ge _ s (by simp [ds_alloc, Heap.alloc]; omega)
      have hdown : h.get s = none := getD_of_ge _ s (by omega)
      rw [hup, hdown]

theorem sbBlock_data_some (h : Heap) (sb : ds_stringbuilder) (a : Nat)
    (hd : sb.data = some a) : sbBlock h sb = h.get a := by
  obtain ⟨d', c'⟩ := sb
  simp only at hd
  subst hd
  rfl

theorem c2_append_case (h : Heap) (a cap : Nat) (d t : List Byte)
    (hget : h.get a = some ⟨2, d⟩) (ht : cstrBytes t ≠ []) :
    contentBytes (ds_builder_append h ⟨some a, cap⟩ (some t)).1 (some a) = d ∧
    (sbBlock (ds_builder_append h ⟨some a, cap⟩ (some t)).1
        (ds_builder_append h ⟨some a, cap⟩ (some t)).2.1).map Block.refcount
      = some 1 := by
  obtain ⟨h2, N, hEq, hNa, hA, hN, hLen, hDead, hFrame⟩ :=
    ensure_unique_shared_facts h a cap 2 d hget (by omega)
  have hNlt : N < h2.blocks.length := h2.lt_of_get_some N _ hN
  have htl : ¬ ((cstrBytes t).length = 0) := by
    simpa [List.length_eq_zero] using ht
  have hstep1 : (ds_builder_append h ⟨some a, cap⟩ (some t)).1
      = h2.set N (some ⟨1, d ++ cstrBytes t⟩) := by
    simp [ds_builder_append, htl, hEq, ensure_capacity_eq, hN]
  have hstep2 : (ds_builder_append h ⟨some a, cap⟩ (some t)).2.1.data
      = some N := by
    simp [ds_builder_append, htl, hEq, ensure_capacity_eq, hN]
  have hga : (h2.set N (some ⟨1, d ++ cstrBytes t⟩)).get a = some ⟨1, d⟩ := by
    rw [Heap.get_set_ne _ _ _ _ hNa]
    exact hA
  have hgN : (h2.set N (some ⟨1, d ++ cstrBytes t⟩)).get N
      = some ⟨1, d ++ cstrBytes t⟩ := Heap.get_set_self h2 N _ hNlt
  constructor
  · rw [hstep1]
    exact (contentBytes_of_get _ a 1 d hga).1
  · rw [sbBlock_data_some _ _ N hstep2, hstep1, hgN]
    rfl

theorem c2_append_char_case (h : Heap) (a cap : Nat) (d : List Byte) (cp : Nat)
    (hget : h.get a = some ⟨2, d⟩) :
    contentBytes (ds_builder_append_char h ⟨some a, cap⟩ cp).1 (some a) = d ∧
    (sbBlock (ds_builder_append_char h ⟨some a, cap⟩ cp).1
        (ds_builder_append_char h ⟨some a, cap⟩ cp).2.1).map Block.refcount
      = some 1 := by
  obtain ⟨h2, N, hEq, hNa, hA, hN, hLen, hDead, hFrame⟩ :=
    ensure_unique_shared_facts h a cap 2 d hget (by omega)
  have hNlt : N < h2.blocks.length := h2.lt_of_get_some N _ hN
  have hstep1 : (ds_builder_append_char h ⟨some a, cap⟩ cp).1
      = h2.set N (some ⟨1, d ++ ds_encode_utf8 cp⟩) := by
    simp [ds_builder_append_char, hEq, ensure_capacity_eq, hN]
  have hstep2 : (ds_builder_append_char h ⟨some a, cap⟩ cp).2.1.data
      = some N := by
    simp [ds_builder_append_char, hEq, ensure_capacity_eq, hN]
  have hga : (h2.set N (some ⟨1, d ++ ds_encode_utf8 cp⟩)).get a
      = some ⟨1, d⟩ := by
    rw [Heap.get_set_ne _ _ _ _ hNa]
    exact hA
  have hgN : (h2.set N (some ⟨1, d ++ ds_encode_utf8 cp⟩)).get N
      = some ⟨1, d ++ ds_encode_utf8 cp⟩ := Heap.get_set_self h2 N _ hNlt
  constructor
  · rw [hstep1]
    exact (contentBytes_of_get _ a 1 d hga).1
  · rw [sbBlock_data_some _ _ N hstep2, hstep1, hgN]
    rfl

theorem c2_append_string_case (h : Heap) (a cap : Nat) (d : List Byte)
    (s : Nat) (bs : Block) (hget : h.get a = some ⟨2, d⟩)
    (hs : h.get s = some bs) :
    contentBytes (ds_builder_append_string h ⟨some a, cap⟩ (some s)).1 (some a)
      = d ∧
    (sbBlock (ds_builder_append_string h ⟨some a, cap⟩ (some s)).1
        (ds_builder_append_string h ⟨some a, cap⟩ (some s)).2.1).map
      Block.refcount = some 1 := by
  obtain ⟨h2, N, hEq, hNa, hA, hN, hLen, hDead, hFrame⟩ :=
    ensure_unique_shared_facts h a cap 2 d hget (by omega)
  have hNlt : N < h2.blocks.length := h2.lt_of_get_some N _ hN
  have hsN : s ≠ N := by
    intro hcon
    subst hcon
    rw [hDead] at hs
    exact Option.noConfusion hs
  have hval : ∃ bsv : Block, h2.get s = some bsv := by
    by_cases hsa : s = a
    · subst hsa
      exact ⟨⟨1, d⟩, hA⟩
    · exact ⟨bs, (hFrame s hsa hsN).trans hs⟩
  obtain ⟨bsv, hval⟩ := hval
  have hstep1 : (ds_builder_append_string h ⟨some a, cap⟩ (some s)).1
      = h2.set N (some ⟨1, d ++ bsv.data⟩) := by
    simp [ds_builder_append_string, hEq, ensure_capacity_eq, hN, hval]
  have hstep2 : (ds_builder_append_string h ⟨some a, cap⟩ (some s)).2.1.data
      = some N := by
    simp [ds_builder_append_string, hEq, ensure_capacity_eq, hN, hval]
  have hga : (h2.set N (some ⟨1, d ++ bsv.data⟩)).get a = some ⟨1, d⟩ := by
    rw [Heap.get_set_ne _ _ _ _ hNa]
    exact hA
  have hgN : (h2.set N (some ⟨1, d ++ bsv.data⟩)).get N
      = some ⟨1, d ++ bsv.data⟩ := Heap.get_set_self h2 N _ hNlt
  constructor
  · rw [hstep1]
    exact (contentBytes_of_get _ a 1 d hga).1
  · rw [sbBlock_data_some _ _ N hstep2, hstep1, hgN]
    rfl

theorem c2_insert_case (h : Heap) (a cap : Nat) (d t : List Byte) (i : Nat)
    (hget : h.get a = some ⟨2, d⟩) (hi : i ≤ d.length) (ht : cstrBytes t ≠ []) :
    contentBytes (ds_builder_insert h ⟨some a, cap⟩ i (some t)).1 (some a) = d ∧
    (sbBlock (ds_builder_insert h ⟨some a, cap⟩ i (some t)).1
        (ds_builder_insert h ⟨some a, cap⟩ i (some t)).2.1).map Block.refcount
      = some 1 := by
  obtain ⟨h2, N, hEq, hNa, hA, hN, hLen, hDead, hFrame⟩ :=
    ensure_unique_shared_facts h a cap 2 d hget (by omega)
  have hNlt : N < h2.blocks.length := h2.lt_of_get_some N _ hN
  have htl : ¬ ((cstrBytes t).length = 0) := by
    simpa [List.length_eq_zero] using ht
  have hidx : ¬ (i > d.length) := by omega
  have hstep1 : (ds_builder_insert h ⟨some a, cap⟩ i (some t)).1
      = h2.set N (some ⟨1, d.take i ++ cstrBytes t ++ d.drop i⟩) := by
    simp [ds_builder_insert, hget, hidx, htl, hEq, ensure_capacity_eq, hN]
  have hstep2 : (ds_builder_insert h ⟨some a, cap⟩ i (some t)).2.1.data
      = some N := by
    simp [ds_builder_insert, hget, hidx, htl, hEq, ensure_capacity_eq, hN]
  have hga : (h2.set N (some ⟨1, d.take i ++ cstrBytes t ++ d.drop i⟩)).get a
      = some ⟨1, d⟩ := by
    rw [Heap.get_set_ne _ _ _ _ hNa]
    exact hA
  have hgN : (h2.set N (some ⟨1, d.take i ++ cstrBytes t ++ d.drop i⟩)).get N
      = some ⟨1, d.take i ++ cstrBytes t ++ d.drop i⟩ :=
    Heap.get_set_self h2 N _ hNlt
  constructor
  · rw [hstep1]
    exact (contentBytes_of_get _ a 1 d hga).1
  · rw [sbBlock_data_some _ _ N hstep2, hstep1, hgN]
    rfl

theorem c2_clear_case (h : Heap) (a cap : Nat) (d : List Byte)
    (hget : h.get a = some ⟨2, d⟩) :
    contentBytes (ds_builder_clear h ⟨some a, cap⟩).1 (some a) = d ∧
    (sbBlock (ds_builder_clear h ⟨some a, cap⟩).1
        (ds_builder_clear h ⟨some a, cap⟩).2).map Block.refcount = some 1 := by
  obtain ⟨h2, N, hEq, hNa, hA, hN, hLen, hDead, hFrame⟩ :=
    ensure_unique_shared_facts h a cap 2 d hget (by omega)
  have hNlt : N < h2.blocks.length := h2.lt_of_get_some N _ hN
  have hstep1 : (ds_builder_clear h ⟨some a, cap⟩).1
      = h2.set N (some ⟨1, []⟩) := by
    simp [ds_builder_clear, hEq, hN]
  have hstep2 : (ds_builder_clear h ⟨some a, cap⟩).2.data = some N := by
    simp [ds_builder_clear, hEq, hN]
  have hga : (h2.set N (some ⟨1, []⟩)).get a = some ⟨1, d⟩ := by
    rw [Heap.get_set_ne _ _ _ _ hNa]
    exact hA
  have hgN : (h2.set N (some ⟨1, []⟩)).get N = some ⟨1, []⟩ :=
    Heap.get_set_self h2 N _ hNlt
  constructor
  · rw [hstep1]
    exact (contentBytes_of_get _ a 1 d hga).1
  · rw [sbBlock_data_some _ _ N hstep2, hstep1, hgN]
    rfl

/-- Claim C2 (amended): with the builder's block shared once externally
(refcount 2 on entry), every mutating builder call that reaches the
copy-on-write step (append with non-empty text, append_char always,
append_string with a valid string, insert with an in-range index and
non-empty text, clear always) leaves the content seen through the external
alias unchanged and returns with the builder's own block at refcount 1.
Calls that return before the copy-on-write step (empty or NULL text,
out-of-range index) leave the shared block untouched at refcount 2. -/

theorem c2_cow_isolation (h : Heap) (a cap : Nat) (d : List Byte)
    (hget : h.get a = some ⟨2, d⟩) :
    (∀ t, cstrBytes t ≠ [] →
      contentBytes (ds_builder_append h ⟨some a, cap⟩ (some t)).1 (some a) = d ∧
      (sbBlock (ds_builder_append h ⟨some a, cap⟩ (some t)).1
          (ds_builder_append h ⟨some a, cap⟩ (some t)).2.1).map Block.refcount
        = some 1) ∧
    (∀ cp, contentBytes (ds_builder_append_char h ⟨some a, cap⟩ cp).1 (some a)
        = d ∧
      (sbBlock (ds_builder_append_char h ⟨some a, cap⟩ cp).1
          (ds_builder_append_char h ⟨some a, cap⟩ cp).2.1).map Block.refcount
        = some 1) ∧
    (∀ s bs, h.get s = some bs →
      contentBytes (ds_builder_append_string h ⟨some a, cap⟩ (some s)).1
          (some a) = d ∧
      (sbBlock (ds_builder_append_string h ⟨some a, cap⟩ (some s)).1
          (ds_builder_append_string h ⟨some a, cap⟩ (some s)).2.1).map
        Block.refcount = some 1) ∧
    (∀ i t, i ≤ d.length → cstrBytes t ≠ [] →
      contentBytes (ds_builder_insert h ⟨some a, cap⟩ i (some t)).1 (some a)
        = d ∧
      (sbBlock (ds_builder_insert h ⟨some a, cap⟩ i (some t)).1
          (ds_builder_insert h ⟨some a, cap⟩ i (some t)).2.1).map Block.refcount
        = some 1) ∧
    (contentBytes (ds_builder_clear h ⟨some a, cap⟩).1 (some a) = d ∧
      (sbBlock (ds_builder_clear h ⟨some a, cap⟩).1
          (ds_builder_clear h ⟨some a, cap⟩).2).map Block.refcount = some 1) :=
  ⟨fun t ht => c2_append_case h a cap d t hget ht,
   fun cp => c2_append_char_case h a cap d cp hget,
   fun s bs hs => c2_append_string_case h a cap d s bs hget hs,
   fun i t hi ht => c2_insert_case h a cap d t i hget hi ht,
   c2_clear_case h a cap d hget⟩

/-- Witness for claim C2: a one-byte builder block with refcount 2, appending
one byte of text. -/

theorem c2_cow_isolation_witness :
    cstrBytes [66] ≠ [] ∧
    contentBytes (ds_builder_append ⟨[some ⟨2, [65]⟩]⟩ ⟨some 0, 2⟩
        (some [66])).1 (some 0) = [65] ∧
    (sbBlock (ds_builder_append ⟨[some ⟨2, [65]⟩]⟩ ⟨some 0, 2⟩ (some [66])).1
        (ds_builder_append ⟨[some ⟨2, [65]⟩]⟩ ⟨some 0, 2⟩ (some [66])).2.1).map
      Block.refcount = some 1 := by
  have h := (c2_cow_isolation ⟨[some ⟨2, [65]⟩]⟩ 0 2 [65] rfl).1 [66] (by decide)
  exact ⟨by decide, h.1, h.2⟩

/-- Claim C2 (counterexample): a mutating builder call with empty text
returns success without resolving the sharing, so the builder's block still
has refcount 2, not 1. -/

theorem c2_cow_isolation_counterexample :
    (ds_builder_append ⟨[some ⟨2, [65]⟩]⟩ ⟨some 0, 2⟩ (some [])).2.2 = 1 ∧
    (sbBlock (ds_builder_append ⟨[some ⟨2, [65]⟩]⟩ ⟨some 0, 2⟩ (some [])).1
        (ds_builder_append ⟨[some ⟨2, [65]⟩]⟩ ⟨some 0, 2⟩ (some [])).2.1).map
      Block.refcount = some 2 ∧
    (sbBlock (ds_builder_append ⟨[some ⟨2, [65]⟩]⟩ ⟨some 0, 2⟩ (some [])).1
        (ds_builder_append ⟨[some ⟨2, [65]⟩]⟩ ⟨some 0, 2⟩ (some [])).2.1).map
      Block.refcount ≠ some 1 := by
  decide

/-- The doubling loop, characterized: starting from a positive capacity it
returns the first power-of-two multiple of the start that reaches the
requirement. -/

theorem growCap_spec_fuel : ∀ (fuel base needed : Nat), needed - base ≤ fuel →
    0 < base → ∃ j, growCap base needed = base * 2 ^ j ∧
      needed ≤ base * 2 ^ j ∧ ∀ i < j, base * 2 ^ i < needed := by
  intro fuel
  induction fuel with
  | zero =>
    intro base needed hf hb
    have hle : ¬ (base < needed) := by omega
    refine ⟨0, ?_, by omega, by omega⟩
    rw [growCap, dif_neg (by omega), dif_neg hle]
    simp
  | succ fuel ih =>
    intro base needed hf hb
    by_cases hlt : base < needed
    · have hstep : growCap base needed = growCap (base * 2) needed := by
        rw [growCap, dif_neg (by omega), dif_pos hlt]
      obtain ⟨j, h1, h2, h3⟩ := ih (base * 2) needed (by omega) (by omega)
      refine ⟨j + 1, ?_, ?_, ?_⟩
      · rw [hstep, h1]
        ring
      · calc needed ≤ base * 2 * 2 ^ j := h2
          _ = base * 2 ^ (j + 1) := by ring
      · intro i hi
        cases i with
        | zero => simpa using hlt
        | succ i =>
          have hii := h3 i (by omega)
          calc base * 2 ^ (i + 1) = base * 2 * 2 ^ i := by ring
            _ < needed := hii
    · refine ⟨0, ?_, by omega, by omega⟩
      rw [growCap, dif_neg (by omega), dif_neg hlt]
      simp

theorem growCap_spec (base needed : Nat) (hb : 0 < base) :
    ∃ j, growCap base needed = base * 2 ^ j ∧
      needed ≤ base * 2 ^ j ∧ ∀ i < j, base * 2 ^ i < needed :=
  growCap_spec_fuel (needed - base) base needed (by omega) hb

/-- A uniquely owned builder block is kept as-is by `ds_sb_ensure_unique`. -/

theorem ensure_unique_solo (h : Heap) (a cap : Nat) (d : List Byte)
    (hget : h.get a = some ⟨1, d⟩) :
    ds_sb_ensure_unique h ⟨some a, cap⟩ = (h, ⟨some a, cap⟩, 1) := by
  simp only [ds_sb_ensure_unique, hget]
  rw [if_pos (by omega)]

/-- One `ds_builder_append_char` step on a uniquely owned block with a
single-byte codepoint: the byte is appended in place. -/

theorem append_char_solo (h : Heap) (a cap : Nat) (d : List Byte) (c : Nat)
    (hget : h.get a = some ⟨1, d⟩) (hc : c ≤ 0x7F) :
    (ds_builder_append_char h ⟨some a, cap⟩ c).1 = h.set a (some ⟨1, d ++ [c]⟩) ∧
    (ds_builder_append_char h ⟨some a, cap⟩ c).2.1.data = some a ∧
    (ds_builder_append_char h ⟨some a, cap⟩ c).2.2 = 1 := by
  have henc : ds_encode_utf8 c = [c] := by rw [ds_encode_utf8, if_pos hc]
  have hsolo := ensure_unique_solo h a cap d hget
  refine ⟨?_, ?_, ?_⟩ <;>
    simp [ds_builder_append_char, henc, hsolo, ensure_capacity_eq, hget]

/-- Iterated `ds_builder_append_char`, discarding the success flags like a
caller that appends unconditionally. -/

theorem appendChars_spec : ∀ (cs : List Nat), (∀ c ∈ cs, c ≤ 0x7F) →
    ∀ (h : Heap) (a cap : Nat) (d : List Byte), h.get a = some ⟨1, d⟩ →
    (appendChars h ⟨some a, cap⟩ cs).2.data = some a ∧
    (appendChars h ⟨some a, cap⟩ cs).1.get a = some ⟨1, d ++ cs⟩ := by
  intro cs
  induction cs with
  | nil =>
    intro _ h a cap d hget
    exact ⟨rfl, by simpa using hget⟩
  | cons c cs ih =>
    intro hall h a cap d hget
    obtain ⟨hs1, hs2, hs3⟩ :=
      append_char_solo h a cap d c hget (hall c (List.mem_cons_self c cs))
    have hlt := h.lt_of_get_some a _ hget
    have hsb : (ds_builder_append_char h ⟨some a, cap⟩ c).2.1
        = ⟨some a, (ds_builder_append_char h ⟨some a, cap⟩ c).2.1.capacity⟩ := by
      have heta : (ds_builder_append_char h ⟨some a, cap⟩ c).2.1
          = ⟨(ds_builder_append_char h ⟨some a, cap⟩ c).2.1.data,
             (ds_builder_append_char h ⟨some a, cap⟩ c).2.1.capacity⟩ := rfl
      rw [hs2] at heta
      exact heta
    have hEq : appendChars h ⟨some a, cap⟩ (c :: cs)
        = appendChars (h.set a (some ⟨1, d ++ [c]⟩))
            ⟨some a, (ds_builder_append_char h ⟨some a, cap⟩ c).2.1.capacity⟩ cs := by
      show appendChars (ds_builder_append_char h ⟨some a, cap⟩ c).1
          (ds_builder_append_char h ⟨some a, cap⟩ c).2.1 cs = _
      rw [hs1, hsb]
    have hget2 : (h.set a (some ⟨1, d ++ [c]⟩)).get a = some ⟨1, d ++ [c]⟩ :=
      Heap.get_set_self h a _ hlt
    obtain ⟨ihd, ihg⟩ := ih (fun x hx => hall x (List.mem_cons_of_mem c hx))
      (h.set a (some ⟨1, d ++ [c]⟩)) a
      (ds_builder_append_char h ⟨some a, cap⟩ c).2.1.capacity (d ++ [c]) hget2
    constructor
    · rw [hEq]
      exact ihd
    · rw [hEq, ihg]
      simp

/-- Claim C7: appending k single-byte characters one at a time to a builder
created with a smaller positive capacity and finishing with
`ds_builder_to_string` yields a string of exactly those k bytes in order;
and every growth of `ds_sb_ensure_capacity` doubles the capacity, starting
from the current capacity or the default floor 32 if it was zero, until the
requirement is reached (the exponent is minimal). -/

theorem c7_builder_growth (h : Heap) (c : Nat) (cs : List Nat)
    (hc0 : 0 < c) (hck : c < cs.length) (hcs : ∀ x ∈ cs, x ≤ 0x7F) :
    (contentBytes
        (ds_builder_to_string
          (appendChars (ds_builder_create_with_capacity h c).1
            (ds_builder_create_with_capacity h c).2 cs).1
          (appendChars (ds_builder_create_with_capacity h c).1
            (ds_builder_create_with_capacity h c).2 cs).2).1
        (ds_builder_to_string
          (appendChars (ds_builder_create_with_capacity h c).1
            (ds_builder_create_with_capacity h c).2 cs).1
          (appendChars (ds_builder_create_with_capacity h c).1
            (ds_builder_create_with_capacity h c).2 cs).2).2.2 = cs ∧
     ds_length
        (ds_builder_to_string
          (appendChars (ds_builder_create_with_capacity h c).1
            (ds_builder_create_with_capacity h c).2 cs).1
          (appendChars (ds_builder_create_with_capacity h c).1
            (ds_builder_create_with_capacity h c).2 cs).2).1
        (ds_builder_to_string
          (appendChars (ds_builder_create_with_capacity h c).1
            (ds_builder_create_with_capacity h c).2 cs).1
          (appendChars (ds_builder_create_with_capacity h c).1
            (ds_builder_create_with_capacity h c).2 cs).2).2.2 = cs.length) ∧
    (∀ (h' : Heap) (sb : ds_stringbuilder) (needed : Nat),
      sb.capacity < needed →
      ∃ j, (ds_sb_ensure_capacity h' sb needed).2.1.capacity
            = (if sb.capacity = 0 then 32 else sb.capacity) * 2 ^ j ∧
          needed ≤ (if sb.capacity = 0 then 32 else sb.capacity) * 2 ^ j ∧
          ∀ i < j, (if sb.capacity = 0 then 32 else sb.capacity) * 2 ^ i
            < needed) := by
  constructor
  · have hcreate : (ds_builder_create_with_capacity h c).2
        = ⟨some (h.alloc ⟨1, []⟩).2, c⟩ := by
      simp [ds_builder_create_with_capacity]
      omega
    have hget0 : (ds_builder_create_with_capacity h c).1.get (h.alloc ⟨1, []⟩).2
        = some ⟨1, []⟩ := Heap.get_alloc_self h ⟨1, []⟩
    rw [hcreate]
    obtain ⟨hd, hg⟩ := appendChars_spec cs hcs
      (ds_builder_create_with_capacity h c).1 (h.alloc ⟨1, []⟩).2 c [] hget0
    have hts : ds_builder_to_string
        (appendChars (ds_builder_create_with_capacity h c).1
          ⟨some (h.alloc ⟨1, []⟩).2, c⟩ cs).1
        (appendChars (ds_builder_create_with_capacity h c).1
          ⟨some (h.alloc ⟨1, []⟩).2, c⟩ cs).2
        = ((appendChars (ds_builder_create_with_capacity h c).1
             ⟨some (h.alloc ⟨1, []⟩).2, c⟩ cs).1, ⟨none, 0⟩,
           some (h.alloc ⟨1, []⟩).2) := by
      have heta : (appendChars (ds_builder_create_with_capacity h c).1
          ⟨some (h.alloc ⟨1, []⟩).2, c⟩ cs).2
          = ⟨some (h.alloc ⟨1, []⟩).2,
             (appendChars (ds_builder_create_with_capacity h c).1
               ⟨some (h.alloc ⟨1, []⟩).2, c⟩ cs).2.capacity⟩ := by
        have heta0 : (appendChars (ds_builder_create_with_capacity h c).1
            ⟨some (h.alloc ⟨1, []⟩).2, c⟩ cs).2
            = ⟨(appendChars (ds_builder_create_with_capacity h c).1
                 ⟨some (h.alloc ⟨1, []⟩).2, c⟩ cs).2.data,
               (appendChars (ds_builder_create_with_capacity h c).1
                 ⟨some (h.alloc ⟨1, []⟩).2, c⟩ cs).2.capacity⟩ := rfl
        rw [hd] at heta0
        exact heta0
      rw [heta]
      rfl
    rw [hts]
    have hcb := contentBytes_of_get _ _ 1 ([] ++ cs) hg
    simpa using hcb
  · intro h' sb needed hneed
    have hcap : (ds_sb_ensure_capacity h' sb needed).2.1.capacity
        = growCap (if sb.capacity = 0 then 32 else sb.capacity) needed := by
      obtain ⟨dat, cc⟩ := sb
      rw [ensure_capacity_eq]
      simp only at hneed ⊢
      rw [if_neg (by omega)]
    rw [hcap]
    exact growCap_spec (if sb.capacity = 0 then 32 else sb.capacity) needed
      (by split <;> omega)

/-- Witness for claim C7: capacity 1, appending the two bytes 65 and 66. -/

theorem c7_builder_growth_witness :
    (0 : Nat) < 1 ∧ (1 : Nat) < 2 ∧
    contentBytes
        (ds_builder_to_string
          (appendChars (ds_builder_create_with_capacity ⟨[]⟩ 1).1
            (ds_builder_create_with_capacity ⟨[]⟩ 1).2 [65, 66]).1
          (appendChars (ds_builder_create_with_capacity ⟨[]⟩ 1).1
            (ds_builder_create_with_capacity ⟨[]⟩ 1).2 [65, 66]).2).1
        (ds_builder_to_string
          (appendChars (ds_builder_create_with_capacity ⟨[]⟩ 1).1
            (ds_builder_create_with_capacity ⟨[]⟩ 1).2 [65, 66]).1
          (appendChars (ds_builder_create_with_capacity ⟨[]⟩ 1).1
            (ds_builder_create_with_capacity ⟨[]⟩ 1).2 [65, 66]).2).2.2
      = [65, 66] := by
  have h := c7_builder_growth ⟨[]⟩ 1 [65, 66] (by decide) (by decide) (by decide)
  exact ⟨by decide, by decide, h.1.1⟩

end DynamicString
